import Mathlib

/-!
Verification of the `cron` in-process recurring-task scheduler.

The Go sources are shallowly embedded:
* `time.Time` is an integer count of nanoseconds; the Go zero value
  `time.Time{}` is `0`, so `IsZero` becomes `= 0`, `Before` is `<`,
  `After` is `>`, `Add`/`Sub` are integer `+`/`-`.
* `Schedule` (interface with `Next(time.Time) time.Time`) is a function
  `Time → Time`; `Job` values are opaque integer tokens.
* Channels are modelled by the queue of messages sent on them, goroutine
  spawns by counters, and the control loop by an explicit state machine
  whose events are the four `select` branches of `Cron.run`.
-/

/-- Go `time.Time`, as nanoseconds; `0` is the zero value. -/
abbrev Time := Int

/-- Go `time.Duration` (int64 nanoseconds). -/
abbrev Duration := Int

/-- The `Entry` struct of cron.go: one registered task.
Field defaults model Go zero-initialization of omitted fields. -/
structure Entry where
  ID : Int
  Schedule : Time → Time
  Job : Int
  Next : Time := 0
  Prev : Time := 0

/-- The comparison performed by `byTime.Less` (cron.go): `Less i j` on a
slice `s` is `byTimeLess s[i] s[j]`.  Zero `Next` sorts last; otherwise
compare with `Before`. -/
def byTimeLess (a b : Entry) : Bool :=
  if a.Next = 0 then false
  else if b.Next = 0 then true
  else decide (a.Next < b.Next)

/-- The non-strict order realized by Go's `sort.Sort(byTime(...))`:
its postcondition is `¬ Less j i` for every `i < j`. -/
def byTimeLE (a b : Entry) : Bool := !byTimeLess b a

/-- `sort.Sort(byTime(c.entries))` in `Cron.run`: some permutation that is
pairwise `byTimeLE`-ordered; realized with merge sort. -/
def sortByTime (l : List Entry) : List Entry := l.mergeSort byTimeLE

/-- The `DelaySchedule` struct of schedule.go. -/
structure DelaySchedule where
  Delay : Duration

/-- `DelaySchedule.Next` (schedule.go): `t.Add(s.Delay)`. -/
def DelaySchedule.Next (s : DelaySchedule) (t : Time) : Time := t + s.Delay

/-- `Every` (schedule.go): builds the fixed-delay schedule. -/
def Every (delay : Duration) : DelaySchedule := { Delay := delay }

/-- The `Cron` struct: `entries`, the `running` flag, the id counter, the
contents of the three channels (`add`, `remove`, pending `stop` signal
count), and a count of `go c.run()` launches (`loopGoroutines`)
instrumenting `Start`. -/
structure Cron where
  entries : List Entry
  running : Bool
  nextID : Int
  add : List Entry
  remove : List Int
  stop : Nat
  loopGoroutines : Nat

/-- `New()` (cron.go): empty collection, not running, counter at zero. -/
def New : Cron :=
  { entries := [], running := false, nextID := 0,
    add := [], remove := [], stop := 0, loopGoroutines := 0 }

/-- `Cron.AddJob` (cron.go): increment `nextID`, build the entry with zero
`Next`/`Prev`, then append directly when not running or send it on the
`add` channel when running; returns the new state and the assigned id. -/
def Cron.AddJob (c : Cron) (schedule : Time → Time) (cmd : Int) : Cron × Int :=
  let nid := c.nextID + 1
  let entry : Entry := { ID := nid, Schedule := schedule, Job := cmd }
  if c.running then
    ({ c with nextID := nid, add := c.add ++ [entry] }, nid)
  else
    ({ c with nextID := nid, entries := c.entries ++ [entry] }, nid)

/-- `Cron.AddFunc` (cron.go): wraps the function as a `FuncJob` and
delegates to `AddJob`. -/
def Cron.AddFunc (c : Cron) (schedule : Time → Time) (cmd : Int) : Cron × Int :=
  c.AddJob schedule cmd

/-- The filtering loop of `Cron.removeEntry` (cron.go): keep every entry
whose id differs (the `nil` early return coincides with filtering `[]`). -/
def removeEntryFrom (entries : List Entry) (id : Int) : List Entry :=
  entries.filter (fun e => e.ID != id)

/-- `Cron.removeEntry` (cron.go) on the scheduler state. -/
def Cron.removeEntry (c : Cron) (id : Int) : Cron :=
  { c with entries := removeEntryFrom c.entries id }

/-- `Cron.Remove` (cron.go): when running, send the id on the `remove`
channel; otherwise remove directly. -/
def Cron.Remove (c : Cron) (id : Int) : Cron :=
  if c.running then { c with remove := c.remove ++ [id] } else c.removeEntry id

/-- `Cron.Start` (cron.go): no-op when already running, otherwise set the
flag and launch one control-loop goroutine. -/
def Cron.Start (c : Cron) : Cron :=
  if c.running then c
  else { c with running := true, loopGoroutines := c.loopGoroutines + 1 }

/-- `Cron.Stop` (cron.go): when running, send one signal on the `stop`
channel and clear the flag; always return a completion handle.  The
handle models the context cancelled by the goroutine that runs
`jobWaiter.Wait()` then `cancel()`: as a function of the number of
outstanding job units, it is signaled exactly when that number is zero. -/
def Cron.Stop (c : Cron) : Cron × (Nat → Bool) :=
  ( if c.running then { c with stop := c.stop + 1, running := false } else c,
    fun outstanding => outstanding == 0 )

/-- Result of running a Go computation: normal return or a panic carrying
the recovered value (modelled as an integer). -/
inductive GoResult (α : Type) where
  | ok : α → GoResult α
  | panicked : Int → GoResult α
deriving DecidableEq

/-- The state touched by `Cron.startJob`: the `sync.WaitGroup` counter
`jobWaiter` and the sequence of error events recorded by the logger. -/
structure JobState where
  jobWaiter : Nat
  errlog : List Int
deriving DecidableEq

/-- The `c.jobWaiter.Add(1)` performed by `startJob` before spawning the
job goroutine. -/
def startJobAdd (s : JobState) : JobState :=
  { s with jobWaiter := s.jobWaiter + 1 }

/-- The goroutine body spawned by `startJob` (cron.go), run to completion:
execute `j.Run()`; the deferred function then recovers any panic, logs it
as one error event with the recovered value, and calls
`jobWaiter.Done()`.  Returns the final state and the result escaping the
goroutine. -/
def startJobGoroutine (run : GoResult Unit) (s : JobState) : JobState × GoResult Unit :=
  match run with
  | .ok _ => ({ s with jobWaiter := s.jobWaiter - 1 }, .ok ())
  | .panicked r =>
      ({ s with errlog := s.errlog ++ [r], jobWaiter := s.jobWaiter - 1 }, .ok ())

/-- `Cron.startJob` (cron.go): `jobWaiter.Add(1)`, then the guarded
goroutine, whose complete execution we observe. -/
def startJob (run : GoResult Unit) (s : JobState) : JobState × GoResult Unit :=
  startJobGoroutine run (startJobAdd s)

/-- The break condition of the wakeup walk in `Cron.run`:
`e.Next.After(now) || e.Next.IsZero()`. -/
def breakCond (now : Time) (e : Entry) : Bool :=
  decide (now < e.Next) || decide (e.Next = 0)

/-- The per-entry mutation of the wakeup walk:
`e.Prev = e.Next; e.Next = e.Schedule.Next(now)`. -/
def fireEntry (now : Time) (e : Entry) : Entry :=
  { e with Prev := e.Next, Next := e.Schedule now }

/-- The timer-wakeup walk of `Cron.run` over the (sorted) entries: stop at
the first entry whose `Next` is zero or after `now`; otherwise launch the
job (record the fired entry, second component) and apply `fireEntry`. -/
def runDue (now : Time) : List Entry → List Entry × List Entry
  | [] => ([], [])
  | e :: rest =>
    if breakCond now e then (e :: rest, [])
    else
      let r := runDue now rest
      (fireEntry now e :: r.1, e :: r.2)

/-- The `100000 * time.Hour` effectively-infinite duration of `Cron.run`,
in nanoseconds. -/
def hundredThousandHours : Duration := 100000 * 3600 * 1000000000

/-- The timer-arming step of `Cron.run`: the effectively-infinite duration
when the collection is empty or the earliest entry has zero `Next`,
otherwise `entries[0].Next.Sub(now)`. -/
def armTimer (now : Time) (entries : List Entry) : Duration :=
  match entries with
  | [] => hundredThousandHours
  | e :: _ => if e.Next = 0 then hundredThousandHours else e.Next - now

/-- The initialization at the top of `Cron.run`: set every pre-registered
entry's `Next` from its schedule at the loop-start time. -/
def loopInit (now : Time) (entries : List Entry) : List Entry :=
  entries.map (fun e => { e with Next := e.Schedule now })

/-- One `select` branch of `Cron.run` other than `stop` (which exits the
loop): a timer wakeup at the fired time, an accepted `add` message with
the fresh `now`, or an accepted `remove` message with the fresh `now`. -/
inductive Event where
  | timer : Time → Event
  | add : Entry → Time → Event
  | remove : Int → Time → Event

/-- The loop-owned state of `Cron.run`: the entry collection and the
current `now`. -/
structure LoopState where
  entries : List Entry
  now : Time

/-- One iteration of the outer loop of `Cron.run`: sort the entries, then
handle one event.  A timer wakeup performs the due-walk `runDue`; an add
computes the new entry's `Next` at the fresh `now` and appends it; a
remove filters by id.  The second component lists the entries fired. -/
def loopCycle (st : LoopState) (ev : Event) : LoopState × List Entry :=
  let sorted := sortByTime st.entries
  match ev with
  | .timer t =>
      let r := runDue t sorted
      ({ entries := r.1, now := t }, r.2)
  | .add e t =>
      ({ entries := sorted ++ [{ e with Next := e.Schedule t }], now := t }, [])
  | .remove i t =>
      ({ entries := removeEntryFrom sorted i, now := t }, [])

/-- `Cron.run` driven by a sequence of events, accumulating every entry
fired along the way. -/
def runLoop (st : LoopState) : List Event → LoopState × List Entry
  | [] => (st, [])
  | ev :: evs =>
      let step := loopCycle st ev
      let rest := runLoop step.1 evs
      (rest.1, step.2 ++ rest.2)

/-- A sequence of pre-start registrations (schedule, job) via `AddJob`. -/
def addAll (c : Cron) (js : List ((Time → Time) × Int)) : Cron :=
  js.foldl (fun c p => (c.AddJob p.1 p.2).1) c

/-- All ids present in the scheduler: live entries plus entries sitting in
the `add` channel. -/
def Cron.allIDs (c : Cron) : List Int :=
  c.entries.map (fun e => e.ID) ++ c.add.map (fun e => e.ID)

/-- The id bookkeeping invariant: the counter is non-negative, every
present id is positive and at most the counter, and ids are distinct. -/
def CronInv (c : Cron) : Prop :=
  0 ≤ c.nextID ∧ (∀ i ∈ c.allIDs, 0 < i ∧ i ≤ c.nextID) ∧ c.allIDs.Nodup

/-- A concrete entry whose schedule always returns the zero time, used by
concrete instantiations. -/
def entryZero : Entry := { ID := 1, Schedule := fun _ => 0, Job := 0 }

/-- A concrete one-entry, not-running scheduler, used by concrete
instantiations. -/
def cron1 : Cron := { New with entries := [{ ID := 1, Schedule := fun t => t, Job := 0 }] }

/-- A concrete running scheduler, used by concrete instantiations. -/
def cronRunning : Cron := { New with running := true }

/-! ### Helper lemmas -/

theorem byTimeLE_iff (a b : Entry) :
    byTimeLE a b = true ↔ (b.Next = 0 ∨ (a.Next ≠ 0 ∧ a.Next ≤ b.Next)) := by
  simp only [byTimeLE, byTimeLess, Bool.not_eq_true']
  by_cases hb : b.Next = 0 <;> by_cases ha : a.Next = 0 <;>
    simp [ha, hb, not_lt]

theorem byTimeLE_trans (a b c : Entry) :
    byTimeLE a b → byTimeLE b c → byTimeLE a c := by
  intro hab hbc
  rw [byTimeLE_iff] at hab hbc ⊢
  rcases hbc with hc | ⟨hb, hbc⟩
  · exact Or.inl hc
  · rcases hab with hb0 | ⟨ha, hab⟩
    · exact absurd hb0 hb
    · exact Or.inr ⟨ha, le_trans hab hbc⟩

theorem byTimeLE_total (a b : Entry) : byTimeLE a b || byTimeLE b a := by
  rw [Bool.or_eq_true, byTimeLE_iff, byTimeLE_iff]
  by_cases hb : b.Next = 0
  · exact Or.inl (Or.inl hb)
  by_cases ha : a.Next = 0
  · exact Or.inr (Or.inl ha)
  rcases le_total a.Next b.Next with h | h
  · exact Or.inl (Or.inr ⟨ha, h⟩)
  · exact Or.inr (Or.inr ⟨hb, h⟩)

theorem sortByTime_perm (l : List Entry) : List.Perm (sortByTime l) l :=
  List.mergeSort_perm l byTimeLE

theorem sortByTime_pairwise (l : List Entry) :
    (sortByTime l).Pairwise (fun a b => byTimeLE a b = true) := by
  have h := List.sorted_mergeSort byTimeLE_trans byTimeLE_total l
  exact h

theorem mem_sortByTime {e : Entry} {l : List Entry} :
    e ∈ sortByTime l ↔ e ∈ l :=
  (sortByTime_perm l).mem_iff

theorem runDue_eq (now : Time) (l : List Entry) :
    runDue now l =
      ((l.takeWhile (fun e => !breakCond now e)).map (fireEntry now) ++
        l.dropWhile (fun e => !breakCond now e),
       l.takeWhile (fun e => !breakCond now e)) := by
  induction l with
  | nil => simp [runDue]
  | cons e rest ih =>
      by_cases h : breakCond now e
      · simp [runDue, h, List.takeWhile_cons, List.dropWhile_cons]
      · simp [runDue, h, List.takeWhile_cons, List.dropWhile_cons, ih]

/-! ### Claim theorems -/

/-- Claim C1: on a timer wakeup at time `t`, the loop walks the sorted
entry collection; the maximal prefix of entries with concrete `Next` not
after `t` is fired in order, each such entry gets `Prev := Next` and
`Next := Schedule t`; the walk stops at the first entry whose `Next` is
zero or strictly after `t`, and every entry from that point on is kept
unchanged and unfired. -/
theorem timer_wakeup_due_prefix (st : LoopState) (t : Time) :
    loopCycle st (Event.timer t) =
      ({ entries :=
           ((sortByTime st.entries).takeWhile (fun e => !breakCond t e)).map (fireEntry t) ++
             (sortByTime st.entries).dropWhile (fun e => !breakCond t e),
         now := t },
       (sortByTime st.entries).takeWhile (fun e => !breakCond t e)) := by
  simp [loopCycle, runDue_eq]

/-- Claim C2: sorting any entry list with the `byTime` ordering yields a
permutation of it in which an entry with zero `Next` is never followed by
one with concrete `Next`, and the entries with concrete `Next` appear in
non-decreasing order of `Next`. -/
theorem sortByTime_concrete_first_zero_last (l : List Entry) :
    List.Perm (sortByTime l) l ∧
    (sortByTime l).Pairwise
      (fun a b => (a.Next = 0 → b.Next = 0) ∧
                  (a.Next ≠ 0 → b.Next ≠ 0 → a.Next ≤ b.Next)) := by
  refine ⟨sortByTime_perm l, (sortByTime_pairwise l).imp ?_⟩
  intro a b hab
  rw [byTimeLE_iff] at hab
  constructor
  · intro ha
    rcases hab with hb | ⟨ha', _⟩
    · exact hb
    · exact absurd ha ha'
  · intro ha hb
    rcases hab with hb' | ⟨_, hle⟩
    · exact absurd hb' hb
    · exact hle

/-- Claim C4: `startJob` records one outstanding-work unit before the job
body runs, and after the job goroutine completes the unit has been
released exactly once (net counter change zero) whether the run action
returned normally or panicked; a panic is suppressed (nothing abnormal
escapes the goroutine) and is recorded as exactly one error event
carrying the recovered value, while a normal return records none. -/
theorem startJob_outstanding_and_containment (run : GoResult Unit) (s : JobState) :
    (startJobAdd s).jobWaiter = s.jobWaiter + 1 ∧
    (startJob run s).1.jobWaiter = s.jobWaiter ∧
    (startJob run s).2 = GoResult.ok () ∧
    (startJob run s).1.errlog =
      s.errlog ++ (match run with | .ok _ => [] | .panicked r => [r]) := by
  cases run <;> simp [startJob, startJobAdd, startJobGoroutine]

/-- Claim C10: the fixed-delay schedule is a pure translation:
`Every(d).Next(t) = t + d`, hence `Next(t) - t = d` independently of `t`;
when `d ≤ 0` the returned time is not after `t`, and an entry holding
that (non-zero) time is due at wakeup time `t` (the walk's break
condition is false for it). -/
theorem Every_fixed_delay (t : Time) (d : Duration) :
    DelaySchedule.Next (Every d) t = t + d ∧
    DelaySchedule.Next (Every d) t - t = d ∧
    (d ≤ 0 → ¬ t < DelaySchedule.Next (Every d) t) ∧
    (d ≤ 0 → DelaySchedule.Next (Every d) t ≠ 0 →
      breakCond t { ID := 0, Schedule := DelaySchedule.Next (Every d), Job := 0,
                    Next := DelaySchedule.Next (Every d) t } = false) := by
  refine ⟨rfl, ?_, ?_, ?_⟩
  · show t + d - t = d
    ring
  · intro hd
    show ¬ t < t + d
    intro hlt
    linarith
  · intro hd hne
    have hne2 : t + d ≠ 0 := hne
    show (decide (t < t + d) || decide (t + d = 0)) = false
    simp only [Bool.or_eq_false_iff, decide_eq_false_iff_not]
    exact ⟨fun hlt => by linarith, hne2⟩

/-- Witness for C10 at `t = 5`, `d = -2`. -/
theorem Every_fixed_delay_witness :
    ((-2 : Int) ≤ 0) ∧ (¬ (5 : Time) < DelaySchedule.Next (Every (-2)) 5) ∧
    breakCond 5 { ID := 0, Schedule := DelaySchedule.Next (Every (-2)), Job := 0,
                  Next := DelaySchedule.Next (Every (-2)) 5 } = false :=
  ⟨by decide, (Every_fixed_delay 5 (-2)).2.2.1 (by decide),
   (Every_fixed_delay 5 (-2)).2.2.2 (by decide) (by decide)⟩

/-- Claim C8: `Start` is idempotent: a second `Start` after any `Start` is
the identity, and calling `Start` while already running changes nothing
(flag, loop-goroutine count and entry collection included). -/
theorem Start_idempotent (c : Cron) :
    (c.Start).Start = c.Start ∧ (c.running = true → c.Start = c) := by
  constructor
  · by_cases h : c.running <;> simp [Cron.Start, h]
  · intro h
    simp [Cron.Start, h]

/-- Witness for C8 on a concrete already-running scheduler. -/
theorem Start_idempotent_witness :
    ({ New with running := true } : Cron).running = true ∧
    ({ New with running := true } : Cron).Start = { New with running := true } :=
  ⟨rfl, (Start_idempotent { New with running := true }).2 rfl⟩

/-- Claim C7: removing an id carried by no entry is a no-op: the entry
collection is returned with the same entries, in the same order, with the
same count, and no entry modified; through `Remove` on a not-running
scheduler the whole state is unchanged. -/
theorem remove_absent_noop (c : Cron) (i : Int)
    (h : ∀ e ∈ c.entries, e.ID ≠ i) :
    c.removeEntry i = c ∧ (c.running = false → c.Remove i = c) := by
  have hf : removeEntryFrom c.entries i = c.entries := by
    apply List.filter_eq_self.mpr
    intro e he
    simpa using h e he
  have h1 : c.removeEntry i = c := by
    show { c with entries := removeEntryFrom c.entries i } = c
    rw [hf]
  exact ⟨h1, fun hr => by simp [Cron.Remove, hr, h1]⟩

/-- Witness for C7: removing id 2 from a scheduler holding only id 1. -/
theorem remove_absent_noop_witness :
    (∀ e ∈ cron1.entries, e.ID ≠ 2) ∧ cron1.removeEntry 2 = cron1 := by
  have h : ∀ e ∈ cron1.entries, e.ID ≠ 2 := by
    intro e he
    rw [cron1, New] at he
    rw [List.mem_singleton] at he
    subst he
    decide
  exact ⟨h, (remove_absent_noop cron1 2 h).1⟩

/-- Claim C3: `Stop` on a running scheduler sends one signal on the stop
channel and clears the running flag; on a not-running scheduler the
signal-send is silently skipped and the state is unchanged; in both cases
the returned completion handle is signaled exactly when the number of
outstanding job-work units is zero. -/
theorem Stop_transition_and_handle (c : Cron) :
    (c.running = true →
        (c.Stop).1 = { c with running := false, stop := c.stop + 1 }) ∧
    (c.running = false → (c.Stop).1 = c) ∧
    (∀ n : Nat, (c.Stop).2 n = true ↔ n = 0) := by
  refine ⟨fun h => by simp [Cron.Stop, h], fun h => by simp [Cron.Stop, h],
    fun n => by simp [Cron.Stop]⟩

/-- Witness for C3 on a running and a fresh scheduler. -/
theorem Stop_transition_and_handle_witness :
    cronRunning.running = true ∧
    (cronRunning.Stop).1 = { cronRunning with running := false, stop := cronRunning.stop + 1 } ∧
    New.running = false ∧ (New.Stop).1 = New ∧
    ((New.Stop).2 0 = true ↔ (0 : Nat) = 0) :=
  ⟨rfl, (Stop_transition_and_handle cronRunning).1 rfl,
   rfl, (Stop_transition_and_handle New).2.1 rfl,
   (Stop_transition_and_handle New).2.2 0⟩

theorem addAll_not_running (js : List ((Time → Time) × Int)) :
    ∀ c : Cron, c.running = false →
      (addAll c js).running = false ∧
      (addAll c js).entries.length = c.entries.length + js.length := by
  induction js with
  | nil =>
      intro c h
      exact ⟨h, rfl⟩
  | cons p js ih =>
      intro c h
      have hstep : ((c.AddJob p.1 p.2).1).running = false ∧
          ((c.AddJob p.1 p.2).1).entries.length = c.entries.length + 1 := by
        simp [Cron.AddJob, h]
      have hrest := ih (c.AddJob p.1 p.2).1 hstep.1
      have hunfold : addAll c (p :: js) = addAll (c.AddJob p.1 p.2).1 js := rfl
      rw [hunfold]
      refine ⟨hrest.1, ?_⟩
      rw [hrest.2, hstep.2]
      simp [Nat.add_assoc, Nat.add_comm 1 js.length]

theorem loopInit_mem {t : Time} {l : List Entry} {e : Entry}
    (he : e ∈ loopInit t l) : e.Next = e.Schedule t := by
  rw [loopInit, List.mem_map] at he
  obtain ⟨a, _, rfl⟩ := he
  rfl

/-- Counterexample to C5 as stated: register one job whose schedule
returns the zero time and start the loop at time 5; the resulting entry
has `Next = 0`, the absent marker, which is not concrete. -/
theorem start_init_concrete_counterexample :
    ¬ (∀ e ∈ loopInit 5 (addAll New [(fun _ => (0 : Time), 0)]).entries,
        e.Next ≠ 0) := by
  intro h
  have hmap : (loopInit 5 (addAll New [(fun _ => (0 : Time), 0)]).entries).map
      (fun e => e.Next) = [0] := rfl
  have hm : (0 : Time) ∈ (loopInit 5 (addAll New [(fun _ => (0 : Time), 0)]).entries).map
      (fun e => e.Next) := by
    rw [hmap]
    exact List.mem_singleton.mpr rfl
  rw [List.mem_map] at hm
  obtain ⟨e, hmem, hnext⟩ := hm
  exact h e hmem hnext

/-- Claim C5 as amended: registering `N` jobs before starting and then
starting the loop at time `t` produces exactly `N` entries, each of whose
`Next` equals its own schedule applied to the single captured time `t`
(and is hence concrete whenever that schedule value is non-zero). -/
theorem start_init_next_eq_schedule (t : Time) (js : List ((Time → Time) × Int)) :
    (loopInit t (addAll New js).entries).length = js.length ∧
    ∀ e ∈ loopInit t (addAll New js).entries,
      e.Next = e.Schedule t ∧ (e.Schedule t ≠ 0 → e.Next ≠ 0) := by
  constructor
  · have h := (addAll_not_running js New rfl).2
    rw [loopInit, List.length_map, h]
    simp [New]
  · intro e he
    have h1 := loopInit_mem he
    exact ⟨h1, fun h2 => by rw [h1]; exact h2⟩

/-- Witness for C5 (amended) with one job of schedule `t + 7` started at
time 3. -/
theorem start_init_next_eq_schedule_witness :
    (loopInit 3 (addAll New [(fun x => x + 7, 1)]).entries).length = 1 ∧
    ({ ID := 1, Schedule := fun x => x + 7, Job := 1, Next := 10 } : Entry).Next =
      ({ ID := 1, Schedule := fun x => x + 7, Job := 1, Next := 10 } : Entry).Schedule 3 := by
  have hlist : loopInit 3 (addAll New [(fun x => x + 7, 1)]).entries =
      [{ ID := 1, Schedule := fun x => x + 7, Job := 1, Next := 10 }] := rfl
  refine ⟨(start_init_next_eq_schedule 3 [(fun x => x + 7, 1)]).1, ?_⟩
  exact ((start_init_next_eq_schedule 3 [(fun x => x + 7, 1)]).2 _
    (by rw [hlist]; exact List.mem_singleton.mpr rfl)).1

theorem addJob_preserves_inv (c : Cron) (schedule : Time → Time) (cmd : Int)
    (hinv : CronInv c) : CronInv (c.AddJob schedule cmd).1 := by
  obtain ⟨hpos, hbound, hnodup⟩ := hinv
  have hfresh : c.nextID + 1 ∉ c.allIDs := by
    intro hmem
    have := (hbound _ hmem).2
    linarith
  have hnext : (c.AddJob schedule cmd).1.nextID = c.nextID + 1 := by
    by_cases h : c.running <;> simp [Cron.AddJob, h]
  by_cases h : c.running
  · have he : (c.AddJob schedule cmd).1.allIDs = c.allIDs ++ [c.nextID + 1] := by
      simp [Cron.AddJob, h, Cron.allIDs]
    refine ⟨by rw [hnext]; linarith, ?_, ?_⟩
    · intro x hx
      rw [he] at hx
      rw [hnext]
      rcases List.mem_append.mp hx with hold | hnew
      · have hb := hbound x hold
        exact ⟨hb.1, by linarith [hb.2]⟩
      · rw [List.mem_singleton] at hnew
        subst hnew
        exact ⟨by linarith, le_refl _⟩
    · rw [he, List.nodup_append]
      refine ⟨hnodup, List.nodup_singleton _, ?_⟩
      intro x hx hx2
      rw [List.mem_singleton] at hx2
      subst hx2
      exact hfresh hx
  · have he : (c.AddJob schedule cmd).1.allIDs =
        c.entries.map (fun e => e.ID) ++ (c.nextID + 1) :: c.add.map (fun e => e.ID) := by
      simp [Cron.AddJob, h, Cron.allIDs]
    refine ⟨by rw [hnext]; linarith, ?_, ?_⟩
    · intro x hx
      rw [he] at hx
      rw [hnext]
      rcases List.mem_append.mp hx with hA | hcons
      · have hb := hbound x (List.mem_append.mpr (Or.inl hA))
        exact ⟨hb.1, by linarith [hb.2]⟩
      · rcases List.mem_cons.mp hcons with rfl | hB
        · exact ⟨by linarith, le_refl _⟩
        · have hb := hbound x (List.mem_append.mpr (Or.inr hB))
          exact ⟨hb.1, by linarith [hb.2]⟩
    · rw [he, List.nodup_middle, List.nodup_cons]
      exact ⟨hfresh, hnodup⟩

theorem remove_preserves_inv (c : Cron) (i : Int) (hinv : CronInv c) :
    CronInv (c.Remove i) := by
  obtain ⟨hpos, hbound, hnodup⟩ := hinv
  by_cases h : c.running
  · have he : (c.Remove i).allIDs = c.allIDs := by
      simp [Cron.Remove, h, Cron.allIDs]
    have hn : (c.Remove i).nextID = c.nextID := by
      simp [Cron.Remove, h]
    rw [CronInv, he, hn]
    exact ⟨hpos, hbound, hnodup⟩
  · have he : (c.Remove i).allIDs =
        (c.entries.filter (fun e => e.ID != i)).map (fun e => e.ID) ++
          c.add.map (fun e => e.ID) := by
      simp [Cron.Remove, h, Cron.removeEntry, removeEntryFrom, Cron.allIDs]
    have hsub : List.Sublist ((c.Remove i).allIDs) c.allIDs := by
      rw [he]
      exact List.Sublist.append_right
        ((List.filter_sublist _).map (fun e : Entry => e.ID)) _
    have hn : (c.Remove i).nextID = c.nextID := by
      simp [Cron.Remove, h, Cron.removeEntry]
    refine ⟨by rw [hn]; exact hpos, ?_, List.Nodup.sublist hsub hnodup⟩
    intro x hx
    rw [hn]
    exact hbound x (hsub.subset hx)

/-- Claim C6: entry ids are assigned monotonically: from any state
satisfying the id invariant, `AddJob` returns `nextID + 1`, strictly
greater than every id already present (so ids are never reused), and the
invariant — all ids distinct and bounded by the counter — holds of the
fresh scheduler and is preserved by `AddJob` and by `Remove`. -/
theorem ids_monotone_unique (c : Cron) (schedule : Time → Time)
    (cmd : Int) (i : Int) (hinv : CronInv c) :
    CronInv New ∧
    (c.AddJob schedule cmd).2 = c.nextID + 1 ∧
    (∀ j ∈ c.allIDs, j < (c.AddJob schedule cmd).2) ∧
    CronInv (c.AddJob schedule cmd).1 ∧
    CronInv (c.Remove i) := by
  have hsnd : (c.AddJob schedule cmd).2 = c.nextID + 1 := by
    by_cases h : c.running <;> simp [Cron.AddJob, h]
  refine ⟨⟨le_refl 0, by simp [New, Cron.allIDs], by simp [New, Cron.allIDs]⟩,
    hsnd, ?_, addJob_preserves_inv c schedule cmd hinv, remove_preserves_inv c i hinv⟩
  intro j hj
  rw [hsnd]
  have := (hinv.2.1 j hj).2
  linarith

/-- Witness for C6 on the fresh scheduler. -/
theorem ids_monotone_unique_witness :
    CronInv New ∧ (New.AddJob (fun t => t) 0).2 = New.nextID + 1 ∧
    CronInv (New.AddJob (fun t => t) 0).1 ∧ CronInv (New.Remove 1) := by
  have hinv : CronInv New :=
    ⟨le_refl 0, by simp [New, Cron.allIDs], by simp [New, Cron.allIDs]⟩
  have h := ids_monotone_unique New (fun t => t) 0 1 hinv
  exact ⟨h.1, h.2.1, h.2.2.2.1, h.2.2.2.2⟩

theorem loopCycle_keeps_zero (e : Entry) (st : LoopState) (ev : Event)
    (hz : e.Next = 0) (hmem : e ∈ st.entries)
    (hnr : ∀ t, ev ≠ Event.remove e.ID t) :
    e ∈ (loopCycle st ev).1.entries ∧ e ∉ (loopCycle st ev).2 := by
  have hsort : e ∈ sortByTime st.entries := mem_sortByTime.mpr hmem
  cases ev with
  | timer t =>
      have hpred : (!breakCond t e) = false := by
        simp [breakCond, hz]
      have hnt : e ∉ (sortByTime st.entries).takeWhile (fun x => !breakCond t x) := by
        intro hmem2
        have hb0 := List.mem_takeWhile_imp hmem2
        have hb : (!breakCond t e) = true := hb0
        rw [hpred] at hb
        exact Bool.noConfusion hb
      have hdw : e ∈ (sortByTime st.entries).dropWhile (fun x => !breakCond t x) := by
        have hsplit := List.takeWhile_append_dropWhile
          (fun x => !breakCond t x) (sortByTime st.entries)
        rw [← hsplit] at hsort
        rcases List.mem_append.mp hsort with hl | hr
        · exact absurd hl hnt
        · exact hr
      have hrd := runDue_eq t (sortByTime st.entries)
      have h1 : (loopCycle st (Event.timer t)).1.entries =
          ((sortByTime st.entries).takeWhile (fun x => !breakCond t x)).map (fireEntry t) ++
            (sortByTime st.entries).dropWhile (fun x => !breakCond t x) := by
        simp [loopCycle, hrd]
      have h2 : (loopCycle st (Event.timer t)).2 =
          (sortByTime st.entries).takeWhile (fun x => !breakCond t x) := by
        simp [loopCycle, hrd]
      rw [h1, h2]
      exact ⟨List.mem_append.mpr (Or.inr hdw), hnt⟩
  | add e2 t =>
      refine ⟨?_, by simp [loopCycle]⟩
      show e ∈ sortByTime st.entries ++ [{ e2 with Next := e2.Schedule t }]
      exact List.mem_append.mpr (Or.inl hsort)
  | remove i t =>
      have hne : i ≠ e.ID := by
        intro hi
        exact hnr t (by rw [hi])
      refine ⟨?_, by simp [loopCycle]⟩
      show e ∈ removeEntryFrom (sortByTime st.entries) i
      rw [removeEntryFrom, List.mem_filter]
      refine ⟨hsort, ?_⟩
      simp only [bne_iff_ne]
      exact fun h => hne h.symm

theorem runLoop_keeps_zero (e : Entry) (evs : List Event) :
    ∀ st : LoopState, e.Next = 0 → e ∈ st.entries →
      (∀ ev ∈ evs, ∀ t, ev ≠ Event.remove e.ID t) →
      e ∈ (runLoop st evs).1.entries ∧ e ∉ (runLoop st evs).2 := by
  induction evs with
  | nil =>
      intro st hz hmem _
      exact ⟨hmem, by simp [runLoop]⟩
  | cons ev evs ih =>
      intro st hz hmem hnr
      have hhead := loopCycle_keeps_zero e st ev hz hmem
        (hnr ev (List.mem_cons_self ev evs))
      have htail := ih (loopCycle st ev).1 hz hhead.1
        (fun ev2 h2 => hnr ev2 (List.mem_cons_of_mem ev h2))
      have hunfold : runLoop st (ev :: evs) =
          ((runLoop (loopCycle st ev).1 evs).1,
           (loopCycle st ev).2 ++ (runLoop (loopCycle st ev).1 evs).2) := rfl
      rw [hunfold]
      refine ⟨htail.1, ?_⟩
      intro hmem2
      rcases List.mem_append.mp hmem2 with hl | hr
      · exact hhead.2 hl
      · exact htail.2 hr

/-- Claim C9: an entry whose `Next` is zero is dormant: across any event
trace that never removes its id it remains in the collection as the very
same entry (its `Next` stays zero, never recomputed) and is never among
the fired entries of any wakeup; by the `byTime` comparison it never
sorts before anything and every entry with concrete `Next` sorts before
it; and when it is the earliest entry the loop arms the 100000-hour
timer. -/
theorem zero_next_dormant (e : Entry) (st : LoopState) (evs : List Event)
    (hz : e.Next = 0) (hmem : e ∈ st.entries)
    (hnr : ∀ ev ∈ evs, ∀ t, ev ≠ Event.remove e.ID t) :
    e ∈ (runLoop st evs).1.entries ∧
    e ∉ (runLoop st evs).2 ∧
    (∀ b : Entry, byTimeLess e b = false) ∧
    (∀ b : Entry, b.Next ≠ 0 → byTimeLess b e = true) ∧
    (∀ t : Time, ∀ rest : List Entry, armTimer t (e :: rest) = hundredThousandHours) := by
  have h := runLoop_keeps_zero e evs st hz hmem hnr
  refine ⟨h.1, h.2, ?_, ?_, ?_⟩
  · intro b
    simp [byTimeLess, hz]
  · intro b hb
    simp [byTimeLess, hb, hz]
  · intro t rest
    simp [armTimer, hz]

/-- Witness for C9: a single zero-`Next` entry survives a timer wakeup
unfired and keeps the infinite timer armed. -/
theorem zero_next_dormant_witness :
    entryZero.Next = 0 ∧
    entryZero ∈ (runLoop { entries := [entryZero], now := 0 } [Event.timer 5]).1.entries ∧
    entryZero ∉ (runLoop { entries := [entryZero], now := 0 } [Event.timer 5]).2 ∧
    armTimer 0 [entryZero] = hundredThousandHours := by
  have hmem : entryZero ∈ ({ entries := [entryZero], now := 0 } : LoopState).entries :=
    List.mem_singleton.mpr rfl
  have hnr : ∀ ev ∈ [Event.timer (5 : Time)], ∀ t, ev ≠ Event.remove entryZero.ID t := by
    intro ev hev t
    rw [List.mem_singleton] at hev
    subst hev
    intro hcontra
    exact Event.noConfusion hcontra
  have h := zero_next_dormant entryZero { entries := [entryZero], now := 0 }
    [Event.timer 5] rfl hmem hnr
  exact ⟨rfl, h.1, h.2.1, h.2.2.2.2 0 []⟩
